import Mathlib

/-!
Shallow embedding of the two HTTP services of this repository:

* `services/speaker_embedder/app.py` — speaker embedding / verification
  (`_audio_to_tensor`, `/embed`, `/verify`);
* `services/pyannote/app.py` — speaker diarization
  (`_auth_token`, `_load_pipeline`, `_normalize_audio`, `/diarize`).

Python floats are modelled as rationals, byte strings as lists of naturals
(< 256), and the external libraries (soundfile decode, torchaudio resample,
the pretrained models) as explicit environment parameters.  Filesystem
effects of the temp-file lifecycle are modelled as the list of temp paths
still existing when the handler returns.
-/

/-- A raised Python exception, as observed by the HTTP layer:
either a `fastapi.HTTPException` with status and detail, or any other
exception (which FastAPI surfaces as a 500 outside the handler code). -/
inductive PyErr where
  | http (status : Nat) (detail : String)
  | other (msg : String)
deriving DecidableEq, Repr

/-- Python 3 `round` on a float with no `ndigits`: round half to even
(banker's rounding), here on exact rationals. -/
def pyRound (q : ℚ) : ℤ :=
  let f : ℤ := ⌊q⌋
  let r : ℚ := q - f
  if r < 1/2 then f
  else if 1/2 < r then f + 1
  else if f % 2 = 0 then f else f + 1

/-- Rounding to the nearest integer with ties going away from zero.
Modelled from the spec's words ("round-half-away-from-zero … a boundary
whose seconds*1000 value is exactly k + 0.5 for integer k maps to k + 1"),
for comparison with the code's `pyRound`. -/
def roundHalfAwayFromZero (q : ℚ) : ℤ :=
  if 0 ≤ q then ⌊q + 1/2⌋ else ⌈q - 1/2⌉

/-- A raw speaker turn yielded by `diarization.itertracks(yield_label=True)`:
`turn.start`, `turn.end` (Python floats, here rationals) and the raw
speaker label. `stop` stands for the Python attribute `end`, a Lean keyword. -/
structure RawTurn where
  start : ℚ
  stop : ℚ
  speaker : String
deriving DecidableEq, Repr

/-- One entry of the `segments` list of the `/diarize` response. -/
structure Segment where
  speaker : String
  start_ms : ℤ
  end_ms : ℤ
deriving DecidableEq, Repr

/-- `int(round(max(0.0, float(t)) * 1000))` — the millisecond conversion
applied to each turn boundary in `diarize`. -/
def segMs (t : ℚ) : ℤ := pyRound (max 0 t * 1000)

/-- `f"S{n}"` — the stable speaker label for first-seen index `n`. -/
def sLabel (n : Nat) : String := "S" ++ Nat.repr n

/-- First-match lookup in an association list, modelling Python dict access
for `speaker_map` (whose keys are inserted at most once, at the end). -/
def lookupA : List (String × String) → String → Option String
  | [], _ => none
  | (k, v) :: rest, s => if k = s then some v else lookupA rest s

/-- The mutable state of the turn loop in `diarize`:
`speaker_map`, `segments`, `speaker_index`. -/
structure LoopState where
  speakerMap : List (String × String)
  segments : List Segment
  speakerIndex : Nat
deriving DecidableEq, Repr

/-- One iteration of the `for turn, _, speaker in diarization.itertracks(...)`
loop: register a newly seen speaker, then append the shaped segment. -/
def processTurn (st : LoopState) (t : RawTurn) : LoopState :=
  let st1 :=
    if (lookupA st.speakerMap t.speaker).isSome then st
    else
      { st with
        speakerMap := st.speakerMap ++ [(t.speaker, sLabel st.speakerIndex)]
        speakerIndex := st.speakerIndex + 1 }
  { st1 with
    segments := st1.segments ++
      [⟨(lookupA st1.speakerMap t.speaker).getD "", segMs t.start, segMs t.stop⟩] }

/-- The whole turn loop, starting from empty map, empty segments, index 0. -/
def processTurns (ts : List RawTurn) : LoopState :=
  ts.foldl processTurn ⟨[], [], 0⟩

/-- The sort key comparison of
`segments.sort(key=lambda seg: (seg["start_ms"], seg["end_ms"]))`:
lexicographic order on the pair (start_ms, end_ms). -/
def keyLe (a b : Segment) : Bool :=
  decide (a.start_ms < b.start_ms ∨ (a.start_ms = b.start_ms ∧ a.end_ms ≤ b.end_ms))

/-- Stable insertion of a segment after every already placed segment whose
key is ≤ its own. -/
def insertSeg (a : Segment) : List Segment → List Segment
  | [] => [a]
  | b :: bs => if keyLe b a then b :: insertSeg a bs else a :: b :: bs

/-- Stable sort by (start_ms, end_ms), the embedding of `list.sort` with the
tuple key (Python's sort is stable; a stable sort of a list by a total
preorder is unique, so insertion sort computes the same list). -/
def sortSegs (l : List Segment) : List Segment :=
  l.foldl (fun acc a => insertSeg a acc) []

/-- The JSON body of a successful `/diarize` response. -/
structure DiarizeResponse where
  duration_sec : ℚ
  speaker_count : Nat
  segments : List Segment
deriving DecidableEq, Repr

/-- Response shaping of `diarize` (lines 99–124 of
`services/pyannote/app.py`): label assignment loop, sort, duration. -/
def diarizeShape (ts : List RawTurn) : DiarizeResponse :=
  let st := processTurns ts
  let sorted := sortSegs st.segments
  { duration_sec :=
      match sorted.getLast? with
      | none => 0
      | some s => (s.end_ms : ℚ) / 1000
    speaker_count := st.speakerMap.length
    segments := sorted }

/-- The list of distinct strings of a list in order of first appearance
(the key set of a Python dict filled by first-seen insertion). -/
def firstSeenAux (acc : List String) : List String → List String
  | [] => acc
  | s :: rest => firstSeenAux (if s ∈ acc then acc else acc ++ [s]) rest

/-- Distinct strings in first-seen order. -/
def firstSeen (l : List String) : List String := firstSeenAux [] l

/-- Index of the first occurrence of a string in a list (length if absent). -/
def idxIn : List String → String → Nat
  | [], _ => 0
  | a :: rest, s => if a = s then 0 else idxIn rest s + 1

/-- A decoded `soundfile` result: `sf.read` returns a 1-D float array for
mono input and a 2-D (frames × channels) array otherwise. -/
inductive SfData where
  | mono (samples : List ℚ)
  | multi (frames : List (List ℚ))
deriving DecidableEq, Repr

/-- `wav.mean(axis=1)` on a 2-D array; identity on an already mono one. -/
def toMono : SfData → List ℚ
  | .mono samples => samples
  | .multi frames => frames.map (fun fr => fr.sum / fr.length)

/-- The external audio libraries, as an oracle environment:
`decode raw` is the outcome of `sf.read(io.BytesIO(raw))` (`none` when it
raises), and `resample w src dst` is `torchaudio.functional.resample`. -/
structure AudioEnv where
  decode : List Nat → Option (SfData × Nat)
  resample : List ℚ → Nat → Nat → List ℚ

/-- The target sample rate `TARGET_SR` of both services. -/
def TARGET_SR : Nat := 16000

/-- A 16-bit little-endian signed sample from two bytes. -/
def int16OfBytes (lo hi : Nat) : ℤ :=
  let v : ℤ := lo + 256 * hi
  if v < 32768 then v else v - 65536

/-- `np.frombuffer(raw, dtype=np.int16).astype(np.float32) / 32768.0`:
fails (`none`) on an odd number of bytes, as `frombuffer` raises when the
buffer size is not a multiple of the element size. -/
def bytesToPcm : List Nat → Option (List ℚ)
  | [] => some []
  | [_] => none
  | lo :: hi :: rest =>
    (bytesToPcm rest).map (fun l => ((int16OfBytes lo hi : ℚ) / 32768) :: l)

/-- `_audio_to_tensor(raw, sample_rate_hint=16000)` of
`services/speaker_embedder/app.py` (lines 50–77): try the container decode
(mono mix, resample to 16 kHz, no length check); on failure fall back to raw
16-bit PCM, check `len(wav) < 1600` before resampling, then resample if the
hint differs from the target rate.  Returns the signal and the sample rate. -/
def audio_to_tensor (A : AudioEnv) (raw : List Nat)
    (sample_rate_hint : Nat := 16000) : Except PyErr (List ℚ × Nat) :=
  match A.decode raw with
  | some (data, sr) =>
    let wav := toMono data
    let wav := if sr ≠ TARGET_SR then A.resample wav sr TARGET_SR else wav
    .ok (wav, TARGET_SR)
  | none =>
    match bytesToPcm raw with
    | none =>
      .error (.http 400
        "Could not parse audio: buffer size must be a multiple of element size")
    | some wav =>
      if wav.length < 1600 then
        .error (.http 400 "Could not parse audio: Audio too short (need at least ~0.1s)")
      else
        let t := if sample_rate_hint ≠ TARGET_SR then
          A.resample wav sample_rate_hint TARGET_SR else wav
        .ok (t, TARGET_SR)

/-- A torch tensor as a nesting structure of rational scalars — enough to
express shapes, `squeeze(0)` and `tolist()`. -/
inductive Tensor where
  | scalar (x : ℚ)
  | stack (ts : List Tensor)

/-- `t.squeeze(0)`: drop the leading dimension when it has size 1. -/
def squeeze0 : Tensor → Tensor
  | .stack [t] => t
  | t => t

/-- A JSON value, the shape of response bodies. -/
inductive Json where
  | num (q : ℚ)
  | str (s : String)
  | bool (b : Bool)
  | arr (elems : List Json)
  | obj (fields : List (String × Json))

mutual

/-- `t.tolist()` — scalars become numbers, stacked tensors arrays. -/
def tolist : Tensor → Json
  | .scalar x => .num x
  | .stack ts => .arr (tolistList ts)

/-- `tolist` mapped over the rows of a stacked tensor. -/
def tolistList : List Tensor → List Json
  | [] => []
  | t :: ts => tolist t :: tolistList ts

end

/-- The `/embed` handler (lines 85–114), after ingress has extracted the
request body or multipart field into `raw`: byte-length ingress check, then
`_audio_to_tensor`, then `encode_batch` (the external classifier, an oracle
`enc`), then `emb.squeeze(0).cpu().numpy().tolist()` under key "embedding". -/
def embed (A : AudioEnv) (enc : List ℚ → Tensor) (raw : List Nat) :
    Except PyErr Json :=
  if raw.length < 1600 then
    .error (.http 400 "Audio too short (need at least ~0.1s)")
  else
    match audio_to_tensor A raw with
    | .error e => .error e
    | .ok (sig, _) =>
      .ok (.obj [("embedding", tolist (squeeze0 (enc sig)))])

/-- External outcomes the `/verify` handler depends on: whether each
`sf.write`, the model invocation and each `os.unlink` succeed, and the
(score, prediction) pair returned by `verify_files`. -/
structure VerifyEnv where
  write1Ok : Bool
  write2Ok : Bool
  modelOk : Bool
  score : ℚ
  pred : Bool
  unlink1Ok : Bool
  unlink2Ok : Bool

/-- The JSON body of a successful `/verify` response. -/
structure VerifyResponse where
  same_speaker : Bool
  score : ℚ
deriving DecidableEq, Repr

/-- The `/verify` handler (lines 117–152).  Returns the result together with
the list of temp-file paths (1 for `f1_path`, 2 for `f2_path`) still
existing on the filesystem after the `finally` cleanup.  Mirrors the source:
both uploads are normalized first (no ingress length check); each temp file
is created and its path recorded before its write; the `finally` block
unlinks every recorded existing path, swallowing unlink failures. -/
def verify (A : AudioEnv) (E : VerifyEnv) (raw1 raw2 : List Nat) :
    Except PyErr VerifyResponse × List Nat :=
  match audio_to_tensor A raw1 with
  | .error e => (.error e, [])
  | .ok _ =>
    match audio_to_tensor A raw2 with
    | .error e => (.error e, [])
    | .ok _ =>
      -- try block: f1 created (path 1)
      if ¬E.write1Ok then
        (.error (.other "sf.write failed"), if E.unlink1Ok then [] else [1])
      else
        -- f2 created (path 2)
        if ¬E.write2Ok then
          (.error (.other "sf.write failed"),
            (if E.unlink1Ok then [] else [1]) ++ (if E.unlink2Ok then [] else [2]))
        else if ¬E.modelOk then
          (.error (.other "verify_files failed"),
            (if E.unlink1Ok then [] else [1]) ++ (if E.unlink2Ok then [] else [2]))
        else
          (.ok ⟨E.pred, E.score⟩,
            (if E.unlink1Ok then [] else [1]) ++ (if E.unlink2Ok then [] else [2]))

/-- The truthiness step of Python's `a or b` on `os.getenv` results:
`None` and the empty string are falsy. -/
def pyEnvOr (x : Option String) (y : String) : String :=
  match x with
  | none => y
  | some s => if s = "" then y else s

/-- Python's `str.strip()`: drop whitespace from both ends. -/
def pyStrip (s : String) : String :=
  ((s.data.dropWhile Char.isWhitespace).reverse.dropWhile
    Char.isWhitespace).reverse.asString

/-- `_auth_token()` of `services/pyannote/app.py` (lines 32–38): the first
truthy value of the three environment variables, or `""`, then `.strip()`
(modelled by `pyStrip`). -/
def auth_token (env : String → Option String) : String :=
  pyStrip (pyEnvOr (env "PYANNOTE_AUTH_TOKEN")
    (pyEnvOr (env "HF_TOKEN")
      (pyEnvOr (env "HUGGINGFACE_TOKEN") "")))

/-- The loaded diarization pipeline handle (the external
`Pipeline.from_pretrained` result, recorded with the token used). -/
structure Pipeline where
  token : String
deriving DecidableEq, Repr

/-- `_pipeline = None` — the module-level cache value at process start.
No environment variable is read and no error can be raised here. -/
def initPipelineState : Option Pipeline := none

/-- `_load_pipeline()` (lines 41–57): return the cached pipeline, else read
the token, raise `RuntimeError` when it is empty, else construct and cache.
The error value is the `RuntimeError` message. -/
def load_pipeline (env : String → Option String) :
    Option Pipeline → Except String (Pipeline × Option Pipeline)
  | some p => .ok (p, some p)
  | none =>
    let token := auth_token env
    if token = "" then
      .error "Missing Hugging Face token. Set PYANNOTE_AUTH_TOKEN (or HF_TOKEN)."
    else
      .ok (⟨token⟩, some ⟨token⟩)

/-- External outcomes the `/diarize` handler depends on: the audio oracle,
whether `sf.write` of the normalized WAV succeeds, whether the pipeline run
succeeds and which raw turns it yields, whether `os.unlink` succeeds, the
process environment and the current pipeline cache. -/
structure DiarizeEnv where
  A : AudioEnv
  writeOk : Bool
  runOk : Bool
  turns : List RawTurn
  unlinkOk : Bool
  env : String → Option String
  pipe0 : Option Pipeline

/-- The `/diarize` handler (lines 87–134).  Returns the result, the list of
temp-file paths (0 for the normalized WAV) still existing after the
`finally` cleanup, and the pipeline cache after the request.  Mirrors the
source: ingress byte-length check; `_normalize_audio` (decode failure is a
400 raised before the temp file is created; a failing `sf.write` raises
after creation but before `wav_path` is assigned in `diarize`, so the
`finally` block does not see the path); `_load_pipeline`; the pipeline run;
shaping; generic exceptions become 500; the `finally` block unlinks
`wav_path` when assigned and existing, swallowing unlink failures. -/
def diarize (E : DiarizeEnv) (raw : List Nat) :
    Except PyErr DiarizeResponse × List Nat × Option Pipeline :=
  if raw.length < 1600 then
    (.error (.http 400 "Audio too short."), [], E.pipe0)
  else
    match E.A.decode raw with
    | none =>
      (.error (.http 400 "Could not parse audio bytes"), [], E.pipe0)
    | some _ =>
      -- temp file created at path 0 by NamedTemporaryFile(delete=False)
      if ¬E.writeOk then
        (.error (.http 500 "sf.write failed"), [0], E.pipe0)
      else
        -- wav_path = 0 assigned in diarize; pipeline load
        match load_pipeline E.env E.pipe0 with
        | .error msg =>
          (.error (.http 500 msg), if E.unlinkOk then [] else [0], E.pipe0)
        | .ok (_, cache) =>
          if ¬E.runOk then
            (.error (.http 500 "pipeline failed"),
              if E.unlinkOk then [] else [0], cache)
          else
            (.ok (diarizeShape E.turns),
              if E.unlinkOk then [] else [0], cache)


/-- The (start_ms, end_ms) lexicographic order as a proposition. -/
def segKeyLE (a b : Segment) : Prop :=
  a.start_ms < b.start_ms ∨ (a.start_ms = b.start_ms ∧ a.end_ms ≤ b.end_ms)

/-- Invariant of the turn loop of `diarize` after processing the prefix `p`:
the map keys are the distinct speakers in first-seen order, each mapped to
"S" followed by its first-seen index, the counter is the number of distinct
speakers, and each emitted segment carries its turn's label and rounded
boundaries. -/
structure LoopWF (st : LoopState) (p : List RawTurn) : Prop where
  keys : st.speakerMap.map Prod.fst = firstSeen (p.map RawTurn.speaker)
  look : ∀ s, s ∈ firstSeen (p.map RawTurn.speaker) →
    lookupA st.speakerMap s =
      some (sLabel (idxIn (firstSeen (p.map RawTurn.speaker)) s))
  idx : st.speakerIndex = (firstSeen (p.map RawTurn.speaker)).length
  segs : st.segments = p.map (fun t =>
    { speaker := sLabel (idxIn (firstSeen (p.map RawTurn.speaker)) t.speaker)
      start_ms := segMs t.start
      end_ms := segMs t.stop })

theorem keyLe_eq_true_iff (a b : Segment) : keyLe a b = true ↔ segKeyLE a b := by
  simp [keyLe, segKeyLE]

theorem keyLe_total (a b : Segment) : keyLe a b = true ∨ keyLe b a = true := by
  simp only [keyLe_eq_true_iff, segKeyLE]
  omega

theorem mem_insertSeg (a x : Segment) (l : List Segment) :
    x ∈ insertSeg a l → x = a ∨ x ∈ l := by
  induction l with
  | nil => simp [insertSeg]
  | cons b bs ih =>
    unfold insertSeg
    by_cases h : keyLe b a = true
    · rw [if_pos h]
      intro hx
      rcases List.mem_cons.mp hx with rfl | hx
      · exact Or.inr (List.mem_cons.mpr (Or.inl rfl))
      · rcases ih hx with h1 | h1
        · exact Or.inl h1
        · exact Or.inr (List.mem_cons.mpr (Or.inr h1))
    · rw [if_neg h]
      intro hx
      rcases List.mem_cons.mp hx with rfl | hx
      · exact Or.inl rfl
      · exact Or.inr hx

theorem sorted_insertSeg (a : Segment) (l : List Segment)
    (hl : l.Sorted (fun x y => keyLe x y = true)) :
    (insertSeg a l).Sorted (fun x y => keyLe x y = true) := by
  induction l with
  | nil => simp [insertSeg]
  | cons b bs ih =>
    rw [List.sorted_cons] at hl
    obtain ⟨hb, hbs⟩ := hl
    unfold insertSeg
    by_cases h : keyLe b a = true
    · rw [if_pos h, List.sorted_cons]
      refine ⟨?_, ih hbs⟩
      intro x hx
      rcases mem_insertSeg a x bs hx with rfl | hx
      · exact h
      · exact hb x hx
    · rw [if_neg h, List.sorted_cons]
      have hab : keyLe a b = true := (keyLe_total a b).resolve_right h
      refine ⟨?_, List.sorted_cons.mpr ⟨hb, hbs⟩⟩
      intro x hx
      rcases List.mem_cons.mp hx with rfl | hx
      · exact hab
      · have hbx := hb x hx
        rw [keyLe_eq_true_iff] at hab hbx ⊢
        unfold segKeyLE at hab hbx ⊢
        omega

theorem sorted_sortSegs_aux (l acc : List Segment)
    (hacc : acc.Sorted (fun x y => keyLe x y = true)) :
    (l.foldl (fun acc a => insertSeg a acc) acc).Sorted
      (fun x y => keyLe x y = true) := by
  induction l generalizing acc with
  | nil => exact hacc
  | cons a l ih => exact ih (insertSeg a acc) (sorted_insertSeg a acc hacc)

theorem sorted_sortSegs (l : List Segment) :
    (sortSegs l).Sorted (fun x y => keyLe x y = true) :=
  sorted_sortSegs_aux l [] (by simp)

theorem perm_insertSeg (a : Segment) (l : List Segment) :
    List.Perm (insertSeg a l) (a :: l) := by
  induction l with
  | nil => simp [insertSeg]
  | cons b bs ih =>
    unfold insertSeg
    by_cases h : keyLe b a = true
    · rw [if_pos h]
      exact List.Perm.trans (List.Perm.cons b ih) (List.Perm.swap a b bs)
    · rw [if_neg h]

theorem perm_sortSegs_aux (l acc : List Segment) :
    List.Perm (l.foldl (fun acc a => insertSeg a acc) acc) (acc ++ l) := by
  induction l generalizing acc with
  | nil => simp
  | cons a l ih =>
    have h1 : (a :: l).foldl (fun acc a => insertSeg a acc) acc
        = l.foldl (fun acc a => insertSeg a acc) (insertSeg a acc) := rfl
    rw [h1]
    have h2 := ih (insertSeg a acc)
    have h3 : List.Perm (insertSeg a acc ++ l) ((a :: acc) ++ l) :=
      (perm_insertSeg a acc).append_right l
    have h4 : List.Perm ((a :: acc) ++ l) (acc ++ a :: l) := List.perm_middle.symm
    exact (h2.trans h3).trans h4

theorem perm_sortSegs (l : List Segment) : List.Perm (sortSegs l) l :=
  perm_sortSegs_aux l []

theorem firstSeenAux_append_singleton (l : List String) :
    ∀ acc s, firstSeenAux acc (l ++ [s]) =
      (if s ∈ firstSeenAux acc l then firstSeenAux acc l
       else firstSeenAux acc l ++ [s]) := by
  induction l with
  | nil => intro acc s; simp [firstSeenAux]
  | cons a l ih =>
    intro acc s
    show firstSeenAux (if a ∈ acc then acc else acc ++ [a]) (l ++ [s]) = _
    rw [ih]
    rfl

theorem mem_firstSeenAux (l : List String) :
    ∀ acc x, x ∈ firstSeenAux acc l ↔ x ∈ acc ∨ x ∈ l := by
  induction l with
  | nil => intro acc x; simp [firstSeenAux]
  | cons a l ih =>
    intro acc x
    show x ∈ firstSeenAux (if a ∈ acc then acc else acc ++ [a]) l ↔ _
    rw [ih]
    by_cases h : a ∈ acc
    · rw [if_pos h]
      simp only [List.mem_cons]
      constructor
      · rintro (hx | hx)
        · exact Or.inl hx
        · exact Or.inr (Or.inr hx)
      · rintro (hx | rfl | hx)
        · exact Or.inl hx
        · exact Or.inl h
        · exact Or.inr hx
    · rw [if_neg h]
      simp only [List.mem_append, List.mem_singleton, List.mem_cons]
      tauto

theorem nodup_firstSeenAux (l : List String) :
    ∀ acc, acc.Nodup → (firstSeenAux acc l).Nodup := by
  induction l with
  | nil => intro acc h; exact h
  | cons a l ih =>
    intro acc hacc
    show ((firstSeenAux (if a ∈ acc then acc else acc ++ [a]) l)).Nodup
    apply ih
    by_cases h : a ∈ acc
    · rwa [if_pos h]
    · rw [if_neg h]
      simpa [List.nodup_append] using ⟨hacc, h⟩

theorem firstSeenAux_prefix (l : List String) :
    ∀ acc, ∃ e, firstSeenAux acc l = acc ++ e := by
  induction l with
  | nil => intro acc; exact ⟨[], by simp [firstSeenAux]⟩
  | cons a l ih =>
    intro acc
    show ∃ e, firstSeenAux (if a ∈ acc then acc else acc ++ [a]) l = acc ++ e
    by_cases h : a ∈ acc
    · rw [if_pos h]; exact ih acc
    · rw [if_neg h]
      obtain ⟨e, he⟩ := ih (acc ++ [a])
      exact ⟨[a] ++ e, by rw [he, List.append_assoc]⟩

theorem firstSeen_append_singleton (l : List String) (s : String) :
    firstSeen (l ++ [s]) =
      (if s ∈ firstSeen l then firstSeen l else firstSeen l ++ [s]) :=
  firstSeenAux_append_singleton l [] s

theorem mem_firstSeen (l : List String) (x : String) :
    x ∈ firstSeen l ↔ x ∈ l := by
  rw [firstSeen, mem_firstSeenAux]
  simp

theorem nodup_firstSeen (l : List String) : (firstSeen l).Nodup :=
  nodup_firstSeenAux l [] List.nodup_nil

theorem firstSeen_cons (s : String) (l : List String) :
    ∃ e, firstSeen (s :: l) = s :: e := by
  obtain ⟨e, he⟩ := firstSeenAux_prefix l [s]
  exact ⟨e, he⟩

theorem idxIn_append_of_mem (l l2 : List String) (x : String) (hx : x ∈ l) :
    idxIn (l ++ l2) x = idxIn l x := by
  induction l with
  | nil => cases hx
  | cons a l ih =>
    show (if a = x then 0 else idxIn (l ++ l2) x + 1) = _
    by_cases h : a = x
    · simp [idxIn, h]
    · rcases List.mem_cons.mp hx with rfl | hx
      · exact absurd rfl h
      · simp [idxIn, h, ih hx]

theorem idxIn_append_self_of_not_mem (l : List String) (x : String) (hx : x ∉ l) :
    idxIn (l ++ [x]) x = l.length := by
  induction l with
  | nil => simp [idxIn]
  | cons a l ih =>
    have ha : a ≠ x := fun h => hx (h ▸ List.mem_cons.mpr (Or.inl rfl))
    have hx' : x ∉ l := fun h => hx (List.mem_cons.mpr (Or.inr h))
    simp [idxIn, ha, ih hx']

theorem idxIn_lt_length (l : List String) (x : String) (hx : x ∈ l) :
    idxIn l x < l.length := by
  induction l with
  | nil => cases hx
  | cons a l ih =>
    by_cases h : a = x
    · simp [idxIn, h]
    · rcases List.mem_cons.mp hx with rfl | hx
      · exact absurd rfl h
      · simpa [idxIn, h] using ih hx

theorem map_idxIn_self (F : List String) (hF : F.Nodup) :
    F.map (fun s => idxIn F s) = List.range F.length := by
  induction F with
  | nil => simp
  | cons a F ih =>
    rw [List.nodup_cons] at hF
    obtain ⟨ha, hF⟩ := hF
    have hmap : F.map (fun s => idxIn (a :: F) s)
        = (F.map (fun s => idxIn F s)).map (· + 1) := by
      rw [List.map_map]
      apply List.map_congr_left
      intro s hs
      have : a ≠ s := fun h => ha (h ▸ hs)
      simp [idxIn, this]
    have hhead : idxIn (a :: F) a = 0 := by simp [idxIn]
    calc (a :: F).map (fun s => idxIn (a :: F) s)
        = idxIn (a :: F) a :: F.map (fun s => idxIn (a :: F) s) := by simp
      _ = 0 :: (F.map (fun s => idxIn F s)).map (· + 1) := by rw [hhead, hmap]
      _ = 0 :: (List.range F.length).map (· + 1) := by rw [ih hF]
      _ = List.range (F.length + 1) := (List.range_succ_eq_map F.length).symm
      _ = List.range (a :: F).length := by simp

theorem lookupA_eq_none_iff (m : List (String × String)) (s : String) :
    lookupA m s = none ↔ s ∉ m.map Prod.fst := by
  induction m with
  | nil => simp [lookupA]
  | cons kv m ih =>
    obtain ⟨k, v⟩ := kv
    by_cases h : k = s
    · simp [lookupA, h]
    · simp [lookupA, h, ih, Ne.symm h]

theorem lookupA_append_of_some (m m2 : List (String × String)) (s : String)
    (v : String) (h : lookupA m s = some v) :
    lookupA (m ++ m2) s = some v := by
  induction m with
  | nil => cases h
  | cons kv m ih =>
    obtain ⟨k, v'⟩ := kv
    by_cases hk : k = s
    · simp only [lookupA, if_pos hk] at h ⊢
      exact h
    · simp only [lookupA, if_neg hk] at h ⊢
      exact ih h

theorem lookupA_append_of_none (m m2 : List (String × String)) (s : String)
    (h : lookupA m s = none) :
    lookupA (m ++ m2) s = lookupA m2 s := by
  induction m with
  | nil => rfl
  | cons kv m ih =>
    obtain ⟨k, v'⟩ := kv
    by_cases hk : k = s
    · simp only [lookupA, if_pos hk] at h
      cases h
    · simp only [lookupA, if_neg hk] at h ⊢
      exact ih h


theorem processTurn_WF (st : LoopState) (p : List RawTurn) (t : RawTurn)
    (h : LoopWF st p) : LoopWF (processTurn st t) (p ++ [t]) := by
  obtain ⟨hkeys, hlook, hidx, hsegs⟩ := h
  have hS' : (p ++ [t]).map RawTurn.speaker
      = p.map RawTurn.speaker ++ [t.speaker] := by simp
  by_cases hmem : t.speaker ∈ firstSeen (p.map RawTurn.speaker)
  · have hF' : firstSeen (p.map RawTurn.speaker ++ [t.speaker])
        = firstSeen (p.map RawTurn.speaker) := by
      rw [firstSeen_append_singleton, if_pos hmem]
    have hl := hlook t.speaker hmem
    have hpt : processTurn st t =
        { st with segments := st.segments ++
            [{ speaker := sLabel
                 (idxIn (firstSeen (p.map RawTurn.speaker)) t.speaker)
               start_ms := segMs t.start
               end_ms := segMs t.stop }] } := by
      simp [processTurn, hl]
    refine ⟨?_, ?_, ?_, ?_⟩ <;> rw [hpt, hS', hF']
    · exact hkeys
    · exact hlook
    · exact hidx
    · rw [List.map_append, ← hsegs]
      rfl
  · have hF' : firstSeen (p.map RawTurn.speaker ++ [t.speaker])
        = firstSeen (p.map RawTurn.speaker) ++ [t.speaker] := by
      rw [firstSeen_append_singleton, if_neg hmem]
    have hnone : lookupA st.speakerMap t.speaker = none := by
      rw [lookupA_eq_none_iff, hkeys]
      exact hmem
    have hlk : lookupA (st.speakerMap ++ [(t.speaker, sLabel st.speakerIndex)])
        t.speaker = some (sLabel st.speakerIndex) := by
      rw [lookupA_append_of_none _ _ _ hnone]
      simp [lookupA]
    have hpt : processTurn st t =
        { speakerMap := st.speakerMap ++ [(t.speaker, sLabel st.speakerIndex)]
          segments := st.segments ++
            [{ speaker := sLabel st.speakerIndex
               start_ms := segMs t.start
               end_ms := segMs t.stop }]
          speakerIndex := st.speakerIndex + 1 } := by
      simp [processTurn, hnone, hlk]
    refine ⟨?_, ?_, ?_, ?_⟩ <;> rw [hpt, hS', hF']
    · simp only [List.map_append, hkeys]
      rfl
    · intro s hs
      rcases List.mem_append.mp hs with hsF | hst
      · rw [idxIn_append_of_mem _ _ _ hsF]
        exact lookupA_append_of_some _ _ _ _ (hlook s hsF)
      · rw [List.mem_singleton] at hst
        subst hst
        rw [idxIn_append_self_of_not_mem _ _ hmem, ← hidx]
        exact hlk
    · simp [hidx]
    · rw [List.map_append]
      have hmap : p.map (fun t' =>
          ({ speaker := sLabel (idxIn (firstSeen (p.map RawTurn.speaker)
               ++ [t.speaker]) t'.speaker)
             start_ms := segMs t'.start
             end_ms := segMs t'.stop } : Segment))
          = p.map (fun t' =>
          ({ speaker := sLabel
               (idxIn (firstSeen (p.map RawTurn.speaker)) t'.speaker)
             start_ms := segMs t'.start
             end_ms := segMs t'.stop } : Segment)) := by
        apply List.map_congr_left
        intro x hx
        have hxs : x.speaker ∈ firstSeen (p.map RawTurn.speaker) :=
          (mem_firstSeen _ _).mpr (List.mem_map.mpr ⟨x, hx, rfl⟩)
        rw [idxIn_append_of_mem _ _ _ hxs]
      rw [hmap, ← hsegs]
      simp [idxIn_append_self_of_not_mem _ _ hmem, hidx]

theorem foldl_processTurn_WF (ts : List RawTurn) :
    ∀ (p : List RawTurn) (st : LoopState), LoopWF st p →
      LoopWF (ts.foldl processTurn st) (p ++ ts) := by
  induction ts with
  | nil => intro p st h; simpa using h
  | cons t ts ih =>
    intro p st h
    have h2 := ih (p ++ [t]) (processTurn st t) (processTurn_WF st p t h)
    simpa using h2

theorem processTurns_WF (ts : List RawTurn) : LoopWF (processTurns ts) ts := by
  have h0 : LoopWF ⟨[], [], 0⟩ [] := by
    refine ⟨rfl, ?_, rfl, rfl⟩
    intro s hs
    simp [firstSeen, firstSeenAux] at hs
  simpa using foldl_processTurn_WF ts [] ⟨[], [], 0⟩ h0

theorem toDigitsCore_eq_digits (fuel : Nat) :
    ∀ (n : Nat) (acc : List Char), 0 < n → n < 10 ^ fuel →
      Nat.toDigitsCore 10 fuel n acc
        = ((Nat.digits 10 n).map Nat.digitChar).reverse ++ acc := by
  induction fuel with
  | zero =>
    intro n acc hn hlt
    simp at hlt
    omega
  | succ fuel ih =>
    intro n acc hn hlt
    have hdig : Nat.digits 10 n = n % 10 :: Nat.digits 10 (n / 10) :=
      Nat.digits_def' (by norm_num) hn
    show (if n / 10 = 0 then Nat.digitChar (n % 10) :: acc
      else Nat.toDigitsCore 10 fuel (n / 10) (Nat.digitChar (n % 10) :: acc)) = _
    by_cases hq : n / 10 = 0
    · rw [if_pos hq]
      rw [hdig, hq]
      simp
    · rw [if_neg hq]
      have hqpos : 0 < n / 10 := Nat.pos_of_ne_zero hq
      have hqlt : n / 10 < 10 ^ fuel := by
        rw [Nat.div_lt_iff_lt_mul (by norm_num : 0 < 10)]
        calc n < 10 ^ (fuel + 1) := hlt
          _ = 10 ^ fuel * 10 := by ring
      rw [ih (n / 10) (Nat.digitChar (n % 10) :: acc) hqpos hqlt, hdig]
      simp

theorem toDigits_eq_digits (n : Nat) (hn : 0 < n) :
    Nat.toDigits 10 n = ((Nat.digits 10 n).map Nat.digitChar).reverse := by
  have hlt : n < 10 ^ (n + 1) := by
    have h1 : n < 10 ^ n := Nat.lt_pow_self (by norm_num) n
    have h2 : 10 ^ n ≤ 10 ^ (n + 1) :=
      Nat.pow_le_pow_right (by norm_num) (Nat.le_succ n)
    omega
  have h := toDigitsCore_eq_digits (n + 1) n [] hn hlt
  simpa [Nat.toDigits] using h

theorem digitChar_inj_of_lt :
    ∀ a, a < 10 → ∀ b, b < 10 → Nat.digitChar a = Nat.digitChar b → a = b := by
  decide

theorem map_digitChar_inj (l1 : List Nat) :
    ∀ l2 : List Nat, (∀ x ∈ l1, x < 10) → (∀ x ∈ l2, x < 10) →
      l1.map Nat.digitChar = l2.map Nat.digitChar → l1 = l2 := by
  induction l1 with
  | nil =>
    intro l2 _ _ h
    cases l2 with
    | nil => rfl
    | cons b l2 => simp at h
  | cons a l1 ih =>
    intro l2 h1 h2 h
    cases l2 with
    | nil => simp at h
    | cons b l2 =>
      simp only [List.map_cons, List.cons.injEq] at h
      obtain ⟨hab, htl⟩ := h
      have ha : a < 10 := h1 a (List.mem_cons.mpr (Or.inl rfl))
      have hb : b < 10 := h2 b (List.mem_cons.mpr (Or.inl rfl))
      have hab' := digitChar_inj_of_lt a ha b hb hab
      have htl' := ih l2 (fun x hx => h1 x (List.mem_cons.mpr (Or.inr hx)))
        (fun x hx => h2 x (List.mem_cons.mpr (Or.inr hx))) htl
      rw [hab', htl']

theorem digits_ne_single_zero (n : Nat) (hn : 0 < n) :
    Nat.digits 10 n ≠ [0] := by
  intro h
  have := Nat.ofDigits_digits 10 n
  rw [h] at this
  simp [Nat.ofDigits] at this
  omega

theorem natRepr_injective : Function.Injective Nat.repr := by
  intro m n h
  have h2 : Nat.toDigits 10 m = Nat.toDigits 10 n := by
    unfold Nat.repr at h
    exact List.asString_inj.mp h
  rcases Nat.eq_zero_or_pos m with hm | hm
  · rcases Nat.eq_zero_or_pos n with hn | hn
    · rw [hm, hn]
    · subst hm
      rw [toDigits_eq_digits n hn] at h2
      have h3 : (Nat.digits 10 n).map Nat.digitChar = ['0'] := by
        have := congrArg List.reverse h2
        simpa using this.symm
      have h4 : Nat.digits 10 n = [0] := by
        apply map_digitChar_inj
        · intro x hx
          exact Nat.digits_lt_base (by norm_num) hx
        · intro x hx
          simp at hx
          omega
        · exact h3.trans (by simp [Nat.digitChar])
      exact absurd h4 (digits_ne_single_zero n hn)
  · rcases Nat.eq_zero_or_pos n with hn | hn
    · subst hn
      rw [toDigits_eq_digits m hm] at h2
      have h3 : (Nat.digits 10 m).map Nat.digitChar = ['0'] := by
        have := congrArg List.reverse h2
        simpa using this
      have h4 : Nat.digits 10 m = [0] := by
        apply map_digitChar_inj
        · intro x hx
          exact Nat.digits_lt_base (by norm_num) hx
        · intro x hx
          simp at hx
          omega
        · exact h3.trans (by simp [Nat.digitChar])
      exact absurd h4 (digits_ne_single_zero m hm)
    · rw [toDigits_eq_digits m hm, toDigits_eq_digits n hn] at h2
      have h3 := congrArg List.reverse h2
      simp only [List.reverse_reverse] at h3
      have h4 : Nat.digits 10 m = Nat.digits 10 n := by
        apply map_digitChar_inj
        · intro x hx
          exact Nat.digits_lt_base (by norm_num) hx
        · intro x hx
          exact Nat.digits_lt_base (by norm_num) hx
        · exact h3
      have h5 := congrArg (Nat.ofDigits 10) h4
      rwa [Nat.ofDigits_digits, Nat.ofDigits_digits] at h5

theorem string_append_left_cancel (p s t : String) (h : p ++ s = p ++ t) :
    s = t := by
  have h2 : (p ++ s).data = (p ++ t).data := by rw [h]
  simp only [String.data_append] at h2
  have h3 := List.append_cancel_left h2
  exact String.ext h3

theorem sLabel_injective : Function.Injective sLabel := by
  intro m n h
  exact natRepr_injective (string_append_left_cancel "S" _ _ h)

theorem processTurns_segments (ts : List RawTurn) :
    (processTurns ts).segments = ts.map (fun t =>
      { speaker := sLabel (idxIn (firstSeen (ts.map RawTurn.speaker)) t.speaker)
        start_ms := segMs t.start
        end_ms := segMs t.stop }) :=
  (processTurns_WF ts).segs

theorem processTurns_speakerMap_length (ts : List RawTurn) :
    (processTurns ts).speakerMap.length
      = (firstSeen (ts.map RawTurn.speaker)).length := by
  have h := congrArg List.length (processTurns_WF ts).keys
  simpa using h

theorem diarizeShape_segments (ts : List RawTurn) :
    (diarizeShape ts).segments = sortSegs (processTurns ts).segments := rfl

theorem diarizeShape_count (ts : List RawTurn) :
    (diarizeShape ts).speaker_count = (processTurns ts).speakerMap.length := rfl

theorem pyRound_nonneg (q : ℚ) (h : 0 ≤ q) : 0 ≤ pyRound q := by
  have hf : 0 ≤ ⌊q⌋ := Int.floor_nonneg.mpr h
  simp only [pyRound]
  split_ifs <;> omega

theorem pyRound_near (q : ℚ) : |q - (pyRound q : ℚ)| ≤ 1/2 := by
  have hle : (⌊q⌋ : ℚ) ≤ q := Int.floor_le q
  have hlt : q < ⌊q⌋ + 1 := Int.lt_floor_add_one q
  simp only [pyRound]
  split_ifs with h1 h2 h3 <;> rw [abs_le] <;> push_cast <;> constructor <;> linarith

theorem pyRound_even_of_half (q : ℚ) (h : q - ⌊q⌋ = 1/2) : pyRound q % 2 = 0 := by
  simp only [pyRound]
  split_ifs with h1 h2 h3
  · rw [h] at h1
    norm_num at h1
  · rw [h] at h2
    norm_num at h2
  · exact h3
  · omega

theorem labels_toFinset_card (ts : List RawTurn) :
    ((processTurns ts).segments.map Segment.speaker).toFinset.card
      = (firstSeen (ts.map RawTurn.speaker)).length := by
  have hsegs := processTurns_segments ts
  rw [hsegs, List.map_map]
  have hcomp : (Segment.speaker ∘ fun t =>
      ({ speaker := sLabel (idxIn (firstSeen (ts.map RawTurn.speaker)) t.speaker)
         start_ms := segMs t.start
         end_ms := segMs t.stop } : Segment))
      = fun t => sLabel (idxIn (firstSeen (ts.map RawTurn.speaker))
          (RawTurn.speaker t)) := rfl
  rw [hcomp]
  have hset : (ts.map (fun t => sLabel (idxIn (firstSeen (ts.map RawTurn.speaker))
      (RawTurn.speaker t)))).toFinset
      = ((firstSeen (ts.map RawTurn.speaker)).map
          (fun s => sLabel (idxIn (firstSeen (ts.map RawTurn.speaker)) s))).toFinset := by
    apply Finset.ext
    intro x
    simp only [List.mem_toFinset, List.mem_map]
    constructor
    · rintro ⟨t, ht, rfl⟩
      exact ⟨t.speaker, (mem_firstSeen _ _).mpr (List.mem_map.mpr ⟨t, ht, rfl⟩), rfl⟩
    · rintro ⟨s, hs, rfl⟩
      have hs2 : s ∈ ts.map RawTurn.speaker := (mem_firstSeen _ _).mp hs
      obtain ⟨t, ht, rfl⟩ := List.mem_map.mp hs2
      exact ⟨t, ht, rfl⟩
  rw [hset]
  have hmap2 : (firstSeen (ts.map RawTurn.speaker)).map
      (fun s => sLabel (idxIn (firstSeen (ts.map RawTurn.speaker)) s))
      = (List.range (firstSeen (ts.map RawTurn.speaker)).length).map sLabel := by
    have hcomp2 : (fun s => sLabel (idxIn (firstSeen (ts.map RawTurn.speaker)) s))
        = sLabel ∘ (fun s => idxIn (firstSeen (ts.map RawTurn.speaker)) s) := rfl
    rw [hcomp2, ← List.map_map, map_idxIn_self _ (nodup_firstSeen _)]
  rw [hmap2]
  rw [List.toFinset_card_of_nodup ((List.nodup_range _).map sLabel_injective)]
  simp

/-- Claim C6: for every multiset of raw diarization turns, in every
iteration order, the segments list of the `/diarize` response is sorted
ascending by the pair (start_ms, end_ms). -/
theorem claim_C6_segments_sorted (ts : List RawTurn) :
    ((diarizeShape ts).segments).Sorted segKeyLE := by
  have h := sorted_sortSegs (processTurns ts).segments
  rw [diarizeShape_segments]
  exact h.imp (fun hab => (keyLe_eq_true_iff _ _).mp hab)

/-- Claim C8: duration_sec of the `/diarize` response equals the end_ms of
the last segment of the sorted segments list divided by 1000, and 0 when the
segments list is empty. -/
theorem claim_C8_duration (ts : List RawTurn) :
    (diarizeShape ts).duration_sec
      = ((diarizeShape ts).segments.getLast?).elim 0
          (fun s => (s.end_ms : ℚ) / 1000) := by
  unfold diarizeShape
  cases h : (sortSegs (processTurns ts).segments).getLast? <;> simp [h]

/-- Claim C2 (amended): every emitted boundary is
`int(round(max(0.0, seconds) * 1000))` where `round` is Python 3's
round-half-to-even, not round-half-away-from-zero: the result is ≥ 0,
within half a millisecond of the clamped scaled value, and a value whose
fractional part is exactly 1/2 rounds to the even neighbour. -/
theorem claim_C2_boundaries (ts : List RawTurn) (i : Nat) (h : i < ts.length) :
    ((processTurns ts).segments[i]?).map Segment.start_ms
        = some (pyRound (max 0 (ts.get ⟨i, h⟩).start * 1000))
    ∧ ((processTurns ts).segments[i]?).map Segment.end_ms
        = some (pyRound (max 0 (ts.get ⟨i, h⟩).stop * 1000))
    ∧ 0 ≤ pyRound (max 0 (ts.get ⟨i, h⟩).start * 1000)
    ∧ 0 ≤ pyRound (max 0 (ts.get ⟨i, h⟩).stop * 1000)
    ∧ (∀ q : ℚ, |q - (pyRound q : ℚ)| ≤ 1/2)
    ∧ (∀ q : ℚ, q - ⌊q⌋ = 1/2 → pyRound q % 2 = 0) := by
  have hseg := processTurns_segments ts
  have hnn : ∀ q : ℚ, 0 ≤ max 0 q * 1000 :=
    fun q => mul_nonneg (le_max_left 0 q) (by norm_num)
  refine ⟨?_, ?_, pyRound_nonneg _ (hnn _), pyRound_nonneg _ (hnn _),
    pyRound_near, pyRound_even_of_half⟩ <;>
    rw [hseg, List.getElem?_map, List.getElem?_eq_getElem
      (by simpa using h)] <;>
    simp [segMs, List.get_eq_getElem]

theorem claim_C2_boundaries_witness :
    ((processTurns [⟨1, 2, "a"⟩]).segments[0]?).map Segment.start_ms
      = some (pyRound (max 0 (([⟨1, 2, "a"⟩] : List RawTurn).get
          ⟨0, by norm_num⟩).start * 1000)) :=
  (claim_C2_boundaries [⟨1, 2, "a"⟩] 0 (by norm_num)).1

/-- Claim C2 counterexample: for a turn starting at 1/400 s the clamped
scaled value is exactly 5/2, the code emits start_ms = 2 (half to even),
while round-half-away-from-zero would give 3. -/
theorem claim_C2_counterexample :
    max 0 (1/400 : ℚ) * 1000 = 5/2
    ∧ (diarizeShape [⟨1/400, 1, "A"⟩]).segments = [⟨"S0", 2, 1000⟩]
    ∧ roundHalfAwayFromZero (5/2) = 3
    ∧ (2 : ℤ) ≠ 3 := by
  refine ⟨by norm_num, ?_, by simp only [roundHalfAwayFromZero]; norm_num,
    by norm_num⟩
  have h1 : segMs (1/400) = 2 := by simp only [segMs, pyRound]; norm_num
  have h2 : segMs 1 = 1000 := by simp only [segMs, pyRound]; norm_num
  have hsegs : (processTurns [⟨1/400, 1, "A"⟩]).segments = [⟨"S0", 2, 1000⟩] := by
    rw [processTurns_segments]
    simp only [List.map_cons, List.map_nil]
    rw [h1, h2]
    decide
  rw [diarizeShape_segments, hsegs]
  decide

/-- Claim C10: there are turn sequences whose earliest segment in the sorted
`/diarize` output carries a label other than "S0", because labels are
assigned in raw iteration order before sorting. -/
theorem claim_C10_first_sorted_not_S0 :
    ((diarizeShape [⟨5, 6, "alice"⟩, ⟨1, 2, "bob"⟩]).segments.head?).map
        Segment.speaker = some "S1"
    ∧ "S1" ≠ "S0" := by
  have h5 : segMs 5 = 5000 := by simp only [segMs, pyRound]; norm_num
  have h6 : segMs 6 = 6000 := by simp only [segMs, pyRound]; norm_num
  have h1 : segMs 1 = 1000 := by simp only [segMs, pyRound]; norm_num
  have h2 : segMs 2 = 2000 := by simp only [segMs, pyRound]; norm_num
  constructor
  · rw [diarizeShape_segments]
    have hsegs : (processTurns [⟨5, 6, "alice"⟩, ⟨1, 2, "bob"⟩]).segments
        = [⟨"S0", 5000, 6000⟩, ⟨"S1", 1000, 2000⟩] := by
      simp [processTurns, processTurn, lookupA, sLabel, h5, h6, h1, h2]
      decide
    rw [hsegs]
    decide
  · decide

/-- Claim C7: speaker labels are assigned deterministically in first-seen
raw iteration order as "S0", "S1", …: every segment's label is "S" followed
by the first-seen index of its turn's raw speaker, the first raw turn's
segment is labelled "S0", turns of the same raw speaker share one label,
and speaker_count equals the number of distinct labels in the response. -/
theorem claim_C7_labels (ts : List RawTurn) :
    ((processTurns ts).segments = ts.map (fun t =>
      { speaker := sLabel (idxIn (firstSeen (ts.map RawTurn.speaker)) t.speaker)
        start_ms := segMs t.start
        end_ms := segMs t.stop }))
    ∧ (∀ t0 rest, ts = t0 :: rest →
        ((processTurns ts).segments.head?).map Segment.speaker = some "S0")
    ∧ (∀ t ∈ ts, ∀ t' ∈ ts, t.speaker = t'.speaker →
        sLabel (idxIn (firstSeen (ts.map RawTurn.speaker)) t.speaker)
          = sLabel (idxIn (firstSeen (ts.map RawTurn.speaker)) t'.speaker))
    ∧ (diarizeShape ts).speaker_count
        = ((diarizeShape ts).segments.map Segment.speaker).toFinset.card := by
  refine ⟨processTurns_segments ts, ?_, ?_, ?_⟩
  · rintro t0 rest rfl
    rw [processTurns_segments]
    obtain ⟨e, he⟩ := firstSeen_cons t0.speaker (rest.map RawTurn.speaker)
    simp only [List.map_cons, List.head?_cons, Option.map_some]
    rw [he]
    have hidx : idxIn (t0.speaker :: e) t0.speaker = 0 := by simp [idxIn]
    rw [hidx]
    show some (sLabel 0) = some "S0"
    decide
  · intro t _ t' _ hsp
    rw [hsp]
  · have hperm : List.Perm ((diarizeShape ts).segments.map Segment.speaker)
        ((processTurns ts).segments.map Segment.speaker) := by
      rw [diarizeShape_segments]
      exact (perm_sortSegs _).map _
    rw [List.toFinset_eq_of_perm _ _ hperm, labels_toFinset_card ts,
      diarizeShape_count, processTurns_speakerMap_length]

theorem claim_C7_labels_witness :
    ((processTurns [⟨0, 1, "x"⟩, ⟨2, 3, "y"⟩, ⟨4, 5, "x"⟩]).segments.head?).map
        Segment.speaker = some "S0"
    ∧ sLabel (idxIn (firstSeen (([⟨0, 1, "x"⟩, ⟨2, 3, "y"⟩, ⟨4, 5, "x"⟩] :
          List RawTurn).map RawTurn.speaker)) "x")
        = sLabel (idxIn (firstSeen (([⟨0, 1, "x"⟩, ⟨2, 3, "y"⟩, ⟨4, 5, "x"⟩] :
          List RawTurn).map RawTurn.speaker)) "x")
    ∧ (diarizeShape [⟨0, 1, "x"⟩, ⟨2, 3, "y"⟩, ⟨4, 5, "x"⟩]).speaker_count
        = ((diarizeShape [⟨0, 1, "x"⟩, ⟨2, 3, "y"⟩, ⟨4, 5, "x"⟩]).segments.map
            Segment.speaker).toFinset.card := by
  have h := claim_C7_labels [⟨0, 1, "x"⟩, ⟨2, 3, "y"⟩, ⟨4, 5, "x"⟩]
  exact ⟨h.2.1 ⟨0, 1, "x"⟩ [⟨2, 3, "y"⟩, ⟨4, 5, "x"⟩] rfl,
    h.2.2.1 ⟨0, 1, "x"⟩ (by simp) ⟨4, 5, "x"⟩ (by simp) rfl, h.2.2.2⟩

theorem bytesToPcm_even : ∀ (raw : List Nat), raw.length % 2 = 0 →
    ∃ wav, bytesToPcm raw = some wav ∧ wav.length = raw.length / 2
  | [] => fun _ => ⟨[], rfl, rfl⟩
  | [x] => fun h => by simp at h
  | lo :: hi :: rest => fun h => by
    have h2 : rest.length % 2 = 0 := by
      simp only [List.length_cons] at h
      omega
    obtain ⟨wav, hw, hl⟩ := bytesToPcm_even rest h2
    refine ⟨((int16OfBytes lo hi : ℚ) / 32768) :: wav, by simp [bytesToPcm, hw], ?_⟩
    simp only [List.length_cons, hl]
    omega

theorem bytesToPcm_some_length : ∀ (raw : List Nat) (wav : List ℚ),
    bytesToPcm raw = some wav → wav.length = raw.length / 2
  | [], wav => fun h => by
    simp only [bytesToPcm, Option.some.injEq] at h
    simp [← h]
  | [x], wav => fun h => by simp [bytesToPcm] at h
  | lo :: hi :: rest, wav => fun h => by
    cases hw : bytesToPcm rest with
    | none =>
      simp only [bytesToPcm, hw, Option.map_none'] at h
      cases h
    | some wav2 =>
      simp only [bytesToPcm, hw, Option.map_some', Option.some.injEq] at h
      subst h
      have hrec := bytesToPcm_some_length rest wav2 hw
      simp only [List.length_cons, hrec]
      omega

theorem bytesToPcm_getElem : ∀ (raw : List Nat) (wav : List ℚ),
    bytesToPcm raw = some wav →
    ∀ i (hi : i < wav.length),
      ∃ (h1 : 2*i < raw.length) (h2 : 2*i+1 < raw.length),
        wav.get ⟨i, hi⟩
          = (int16OfBytes (raw.get ⟨2*i, h1⟩) (raw.get ⟨2*i+1, h2⟩) : ℚ) / 32768
  | [], wav => fun h => by
    simp only [bytesToPcm, Option.some.injEq] at h
    subst h
    intro i hi
    simp at hi
  | [x], wav => fun h => by simp [bytesToPcm] at h
  | lo :: hi :: rest, wav => fun h => by
    cases hw : bytesToPcm rest with
    | none =>
      simp only [bytesToPcm, hw, Option.map_none'] at h
      cases h
    | some wav2 =>
    simp only [bytesToPcm, hw, Option.map_some', Option.some.injEq] at h
    subst h
    intro i hilt
    cases i with
    | zero =>
      refine ⟨by simp, by simp, ?_⟩
      rfl
    | succ i =>
      have hi2 : i < wav2.length := by
        simp only [List.length_cons] at hilt
        omega
      obtain ⟨h1, h2, heq⟩ := bytesToPcm_getElem rest wav2 hw i hi2
      refine ⟨?_, ?_, ?_⟩
      · simp only [List.length_cons]
        omega
      · simp only [List.length_cons]
        omega
      · have e1 : 2 * (i + 1) = (2 * i) + 1 + 1 := by omega
        simp only [List.get_cons_succ, e1]
        exact heq

/-- Claim C1 (amended): the minimum-length rule is enforced only at the
`/embed` and `/diarize` ingress byte-length checks and in the raw-PCM
fallback of `_audio_to_tensor` (on the sample count, before resampling);
the structured-container decode path applies no length validation at all,
so a short input that decodes successfully is normalized without error
(and `/verify`, which has no ingress check, accepts it). -/
theorem claim_C1_short_input :
    (∀ (A : AudioEnv) (enc : List ℚ → Tensor) (raw : List Nat),
      raw.length < 1600 →
        embed A enc raw
          = .error (.http 400 "Audio too short (need at least ~0.1s)"))
    ∧ (∀ (E : DiarizeEnv) (raw : List Nat), raw.length < 1600 →
        (diarize E raw).1 = .error (.http 400 "Audio too short."))
    ∧ (∀ (A : AudioEnv) (raw : List Nat) (hint : Nat) (wav : List ℚ),
        A.decode raw = none → bytesToPcm raw = some wav → wav.length < 1600 →
        audio_to_tensor A raw hint
          = .error (.http 400
              "Could not parse audio: Audio too short (need at least ~0.1s)"))
    ∧ (∀ (A : AudioEnv) (raw : List Nat) (data : SfData) (sr hint : Nat),
        A.decode raw = some (data, sr) →
        audio_to_tensor A raw hint
          = .ok ((if sr ≠ TARGET_SR then A.resample (toMono data) sr TARGET_SR
              else toMono data), TARGET_SR)) := by
  refine ⟨?_, ?_, ?_, ?_⟩
  · intro A enc raw h
    simp [embed, h]
  · intro E raw h
    simp [diarize, h]
  · intro A raw hint wav hdec hpcm hlen
    simp [audio_to_tensor, hdec, hpcm, hlen]
  · intro A raw data sr hint hdec
    simp [audio_to_tensor, hdec]

theorem claim_C1_short_input_witness :
    embed ⟨fun _ => none, fun l _ _ => l⟩ (fun _ => Tensor.scalar 0) []
        = .error (.http 400 "Audio too short (need at least ~0.1s)")
    ∧ (diarize ⟨⟨fun _ => none, fun l _ _ => l⟩, true, true, [], true,
          fun _ => none, none⟩ []).1
        = .error (.http 400 "Audio too short.")
    ∧ audio_to_tensor ⟨fun _ => none, fun l _ _ => l⟩ [0, 0] 16000
        = .error (.http 400
            "Could not parse audio: Audio too short (need at least ~0.1s)")
    ∧ audio_to_tensor
        ⟨fun _ => some (SfData.mono [0], 16000), fun l _ _ => l⟩ [] 16000
        = .ok ([0], TARGET_SR) := by
  have h := claim_C1_short_input
  refine ⟨h.1 _ _ [] (by norm_num), h.2.1 _ [] (by norm_num),
    h.2.2.1 _ [0, 0] 16000 [(int16OfBytes 0 0 : ℚ) / 32768] rfl rfl
      (by norm_num), ?_⟩
  have h4 := h.2.2.2 ⟨fun _ => some (SfData.mono [0], 16000), fun l _ _ => l⟩
    [] (SfData.mono [0]) 16000 16000 rfl
  simpa [toMono, TARGET_SR] using h4

/-- Claim C1 counterexample: a 244-byte input that decodes as a 100-sample
WAV passes `/verify` normalization and the whole request succeeds, so an
input shorter than 1600 bytes does not fail with InvalidAudio on the
container-decode path. -/
theorem claim_C1_counterexample :
    (List.replicate 244 (0:Nat)).length < 1600
    ∧ (verify
        ⟨fun raw => if raw.length = 244
            then some (SfData.mono (List.replicate 100 0), 16000) else none,
          fun l _ _ => l⟩
        ⟨true, true, true, 1/2, true, true, true⟩
        (List.replicate 244 0) (List.replicate 244 0)).1
      = .ok ⟨true, 1/2⟩ := by
  constructor
  · norm_num
  · set_option maxRecDepth 4000 in rfl

/-- Claim C5 (amended): in the raw-PCM fallback the bytes are interpreted as
16-bit little-endian PCM divided by 32768, and resampling from the hint rate
to 16 kHz is applied when the hint differs — but the ≥ 1600-sample check is
applied to the decoded buffer before resampling (on raw.length / 2 samples),
so 1000 input samples with sample_rate_hint 8000 fail validation even though
they would resample to about 2000 samples. -/
theorem claim_C5_pcm_fallback (A : AudioEnv) (raw : List Nat) (hint : Nat)
    (wav : List ℚ) (hdec : A.decode raw = none)
    (hpcm : bytesToPcm raw = some wav) :
    wav.length = raw.length / 2
    ∧ (∀ i (hi : i < wav.length),
        ∃ (h1 : 2*i < raw.length) (h2 : 2*i+1 < raw.length),
          wav.get ⟨i, hi⟩
            = (int16OfBytes (raw.get ⟨2*i, h1⟩) (raw.get ⟨2*i+1, h2⟩) : ℚ)
                / 32768)
    ∧ (1600 ≤ wav.length →
        audio_to_tensor A raw hint
          = .ok ((if hint ≠ TARGET_SR then A.resample wav hint TARGET_SR
              else wav), TARGET_SR))
    ∧ (wav.length < 1600 →
        audio_to_tensor A raw hint
          = .error (.http 400
              "Could not parse audio: Audio too short (need at least ~0.1s)")) := by
  refine ⟨bytesToPcm_some_length raw wav hpcm, bytesToPcm_getElem raw wav hpcm,
    ?_, ?_⟩
  · intro hlen
    have hnot : ¬ wav.length < 1600 := by omega
    simp [audio_to_tensor, hdec, hpcm, hnot]
  · intro hlen
    simp [audio_to_tensor, hdec, hpcm, hlen]

theorem claim_C5_pcm_fallback_witness :
    audio_to_tensor ⟨fun _ => none, fun l _ _ => l⟩ [1, 2] 16000
      = .error (.http 400
          "Could not parse audio: Audio too short (need at least ~0.1s)") := by
  have h := (claim_C5_pcm_fallback ⟨fun _ => none, fun l _ _ => l⟩ [1, 2] 16000
    [(int16OfBytes 1 2 : ℚ) / 32768] rfl rfl).2.2.2
  exact h (by norm_num)

/-- Claim C5 counterexample: 2000 bytes (1000 PCM samples) with
sample_rate_hint 8000 are rejected as too short by `_audio_to_tensor`,
although the claim says they pass validation because the post-resample
length would be about 2000 samples. -/
theorem audio_to_tensor_fallback_short (A : AudioEnv) (raw : List Nat)
    (hint : Nat) (wav : List ℚ) (hdec : A.decode raw = none)
    (hpcm : bytesToPcm raw = some wav) (hlen : wav.length < 1600) :
    audio_to_tensor A raw hint
      = .error (.http 400
          "Could not parse audio: Audio too short (need at least ~0.1s)") := by
  simp [audio_to_tensor, hdec, hpcm, hlen]

theorem claim_C5_counterexample :
    (List.replicate 2000 (0:Nat)).length / 2 = 1000
    ∧ audio_to_tensor ⟨fun _ => none, fun l _ _ => l⟩
        (List.replicate 2000 0) 8000
      = .error (.http 400
          "Could not parse audio: Audio too short (need at least ~0.1s)") := by
  refine ⟨by norm_num, ?_⟩
  obtain ⟨wav, hw, hl⟩ := bytesToPcm_even (List.replicate 2000 0)
    (by rw [List.length_replicate])
  have hlen : wav.length < 1600 := by
    rw [hl, List.length_replicate]
    norm_num
  exact audio_to_tensor_fallback_short _ _ _ _ rfl hw hlen

theorem tolistList_map_scalar (l : List ℚ) :
    tolistList (l.map Tensor.scalar) = l.map Json.num := by
  induction l with
  | nil => rfl
  | cons a l ih =>
    simp only [List.map_cons, tolistList, tolist, ih]

/-- Claim C3: for every successful POST /embed request, given that the
classifier's encode_batch returns one 192-dimensional embedding for the
single-utterance batch (a tensor of shape (1, 192)), the response body is
{"embedding": v} with v a flat ordered array of exactly 192 numbers, not a
nested array. -/
theorem claim_C3_embed_flat (A : AudioEnv) (enc : List ℚ → Tensor)
    (raw : List Nat) (j : Json) (l : List ℚ)
    (hsucc : embed A enc raw = .ok j)
    (henc : ∀ sig, enc sig = Tensor.stack [Tensor.stack (l.map Tensor.scalar)])
    (hlen : l.length = 192) :
    j = .obj [("embedding", Json.arr (l.map Json.num))]
    ∧ (l.map Json.num).length = 192
    ∧ (∀ x ∈ l.map Json.num, ∃ q, x = Json.num q) := by
  refine ⟨?_, by simp [hlen], ?_⟩
  · unfold embed at hsucc
    by_cases hl : raw.length < 1600
    · rw [if_pos hl] at hsucc
      cases hsucc
    · rw [if_neg hl] at hsucc
      cases ha : audio_to_tensor A raw with
      | error e =>
        rw [ha] at hsucc
        cases hsucc
      | ok p =>
        obtain ⟨sig, sr⟩ := p
        rw [ha] at hsucc
        simp only [Except.ok.injEq] at hsucc
        rw [← hsucc, henc sig]
        have hsq : squeeze0 (Tensor.stack [Tensor.stack (l.map Tensor.scalar)])
            = Tensor.stack (l.map Tensor.scalar) := rfl
        rw [hsq]
        show Json.obj [("embedding", Json.arr (tolistList (l.map Tensor.scalar)))] = _
        rw [tolistList_map_scalar]
  · intro x hx
    obtain ⟨q, _, rfl⟩ := List.mem_map.mp hx
    exact ⟨q, rfl⟩

theorem claim_C3_embed_flat_witness :
    embed ⟨fun _ => some (SfData.mono [0], 16000), fun w _ _ => w⟩
        (fun _ => Tensor.stack [Tensor.stack
          ((List.replicate 192 (0:ℚ)).map Tensor.scalar)])
        (List.replicate 1600 0)
      = .ok (Json.obj [("embedding",
          Json.arr ((List.replicate 192 (0:ℚ)).map Json.num))])
    ∧ ((List.replicate 192 (0:ℚ)).map Json.num).length = 192 := by
  have hnot : ¬ (List.replicate 1600 (0:Nat)).length < 1600 := by
    rw [List.length_replicate]
    omega
  have hat : audio_to_tensor
      ⟨fun _ => some (SfData.mono [0], 16000), fun w _ _ => w⟩
      (List.replicate 1600 0) = .ok ([0], TARGET_SR) := by
    simp [audio_to_tensor, toMono, TARGET_SR]
  have hsucc : embed ⟨fun _ => some (SfData.mono [0], 16000), fun w _ _ => w⟩
      (fun _ => Tensor.stack [Tensor.stack
        ((List.replicate 192 (0:ℚ)).map Tensor.scalar)])
      (List.replicate 1600 0)
      = .ok (Json.obj [("embedding",
          Json.arr ((List.replicate 192 (0:ℚ)).map Json.num))]) := by
    unfold embed
    rw [if_neg hnot, hat]
    show Except.ok (Json.obj [("embedding",
        tolist (squeeze0 (Tensor.stack [Tensor.stack
          ((List.replicate 192 (0:ℚ)).map Tensor.scalar)])))]) = _
    rw [show squeeze0 (Tensor.stack [Tensor.stack
        ((List.replicate 192 (0:ℚ)).map Tensor.scalar)])
        = Tensor.stack ((List.replicate 192 (0:ℚ)).map Tensor.scalar) from rfl]
    show Except.ok (Json.obj [("embedding", Json.arr
        (tolistList ((List.replicate 192 (0:ℚ)).map Tensor.scalar)))]) = _
    rw [tolistList_map_scalar]
  have h := claim_C3_embed_flat
    ⟨fun _ => some (SfData.mono [0], 16000), fun w _ _ => w⟩
    (fun _ => Tensor.stack [Tensor.stack
      ((List.replicate 192 (0:ℚ)).map Tensor.scalar)])
    (List.replicate 1600 0)
    (Json.obj [("embedding", Json.arr ((List.replicate 192 (0:ℚ)).map Json.num))])
    (List.replicate 192 0)
    hsucc (fun _ => rfl) (List.length_replicate 192 0)
  exact ⟨hsucc, h.2.1⟩

/-- Claim C4 (amended): temp files of `/verify` and `/diarize` are absent
after the request on every exit path, provided the deletions themselves
succeed and, for `/diarize`, the `sf.write` of the normalized WAV succeeds
(a write failure inside `_normalize_audio` leaks the freshly created temp
file, since `wav_path` is never assigned and the `finally` cleanup skips
it); failures of the deletion itself are swallowed silently and never
change the primary result or error. -/
theorem claim_C4_temp_cleanup :
    (∀ (A : AudioEnv) (E : VerifyEnv) (raw1 raw2 : List Nat),
        E.unlink1Ok = true → E.unlink2Ok = true →
        (verify A E raw1 raw2).2 = [])
    ∧ (∀ (E : DiarizeEnv) (raw : List Nat),
        E.writeOk = true → E.unlinkOk = true →
        (diarize E raw).2.1 = [])
    ∧ (∀ (A : AudioEnv) (E : VerifyEnv) (raw1 raw2 : List Nat) (b1 b2 : Bool),
        (verify A { E with unlink1Ok := b1, unlink2Ok := b2 } raw1 raw2).1
          = (verify A E raw1 raw2).1)
    ∧ (∀ (E : DiarizeEnv) (raw : List Nat) (b : Bool),
        (diarize { E with unlinkOk := b } raw).1 = (diarize E raw).1) := by
  refine ⟨?_, ?_, ?_, ?_⟩
  · intro A E raw1 raw2 h1 h2
    unfold verify
    cases audio_to_tensor A raw1 with
    | error e => rfl
    | ok p1 =>
      cases audio_to_tensor A raw2 with
      | error e => rfl
      | ok p2 =>
        simp [h1, h2]
        split_ifs <;> simp
  · intro E raw hw hu
    unfold diarize
    by_cases hlen : raw.length < 1600
    · rw [if_pos hlen]
    · rw [if_neg hlen]
      cases E.A.decode raw with
      | none => rfl
      | some d =>
        simp only [hw]
        cases load_pipeline E.env E.pipe0 with
        | error msg => simp [hu]
        | ok pc =>
          simp [hu]
          split_ifs <;> simp
  · intro A E raw1 raw2 b1 b2
    unfold verify
    cases audio_to_tensor A raw1 with
    | error e => rfl
    | ok p1 =>
      cases audio_to_tensor A raw2 with
      | error e => rfl
      | ok p2 =>
        simp only []
        split_ifs <;> rfl
  · intro E raw b
    unfold diarize
    by_cases hlen : raw.length < 1600
    · simp [hlen]
    · simp only [if_neg hlen]
      cases E.A.decode raw with
      | none => rfl
      | some d =>
        simp only []
        split_ifs
        all_goals
          cases load_pipeline E.env E.pipe0 with
          | error msg => rfl
          | ok pc =>
            obtain ⟨p, cache⟩ := pc
            rfl

theorem claim_C4_temp_cleanup_witness :
    (verify ⟨fun _ => none, fun w _ _ => w⟩
        ⟨true, true, true, 0, true, true, true⟩ [] []).2 = []
    ∧ (diarize ⟨⟨fun _ => none, fun w _ _ => w⟩, true, true, [], true,
        fun _ => none, none⟩ []).2.1 = []
    ∧ (verify ⟨fun _ => none, fun w _ _ => w⟩
        { (⟨true, true, true, 0, true, true, true⟩ : VerifyEnv) with
          unlink1Ok := false, unlink2Ok := false } [] []).1
      = (verify ⟨fun _ => none, fun w _ _ => w⟩
          ⟨true, true, true, 0, true, true, true⟩ [] []).1
    ∧ (diarize { (⟨⟨fun _ => none, fun w _ _ => w⟩, true, true, [], true,
        fun _ => none, none⟩ : DiarizeEnv) with unlinkOk := false } []).1
      = (diarize ⟨⟨fun _ => none, fun w _ _ => w⟩, true, true, [], true,
          fun _ => none, none⟩ []).1 := by
  have h := claim_C4_temp_cleanup
  exact ⟨h.1 _ _ [] [] rfl rfl, h.2.1 _ [] rfl rfl,
    h.2.2.1 _ _ [] [] false false, h.2.2.2 _ [] false⟩

/-- Claim C4 counterexample: in `/diarize`, when the `sf.write` of the
normalized WAV fails after `NamedTemporaryFile(delete=False)` created the
file, `wav_path` is never assigned, the `finally` block skips the unlink,
and the temp file (path 0) is still present after the request — so cleanup
does not happen on every exit path. -/
theorem claim_C4_counterexample :
    (diarize ⟨⟨fun _ => some (SfData.mono [0], 16000), fun w _ _ => w⟩,
        false, true, [], true, fun _ => some "tok", none⟩
        (List.replicate 1600 0)).2.1 = [0]
    ∧ [0] ≠ ([] : List Nat) := by
  constructor
  · have h1600 : ¬ (List.replicate 1600 (0:Nat)).length < 1600 := by
      rw [List.length_replicate]
      omega
    unfold diarize
    rw [if_neg h1600]
    rfl
  · simp

/-- Claim C9: the diarization auth token is read from
PYANNOTE_AUTH_TOKEN, then HF_TOKEN, then HUGGINGFACE_TOKEN, the first
non-empty value winning; the pipeline cache starts as None at process start
(no token check at import time), and when no token is available the
RuntimeError is raised at the first `/diarize` invocation and surfaces to
the caller as an HTTP 500 response. -/
theorem claim_C9_auth_token :
    (∀ (env : String → Option String) (s : String),
        env "PYANNOTE_AUTH_TOKEN" = some s → s ≠ "" →
        auth_token env = pyStrip s)
    ∧ (∀ (env : String → Option String) (s : String),
        (env "PYANNOTE_AUTH_TOKEN" = none ∨ env "PYANNOTE_AUTH_TOKEN" = some "") →
        env "HF_TOKEN" = some s → s ≠ "" →
        auth_token env = pyStrip s)
    ∧ (∀ (env : String → Option String) (s : String),
        (env "PYANNOTE_AUTH_TOKEN" = none ∨ env "PYANNOTE_AUTH_TOKEN" = some "") →
        (env "HF_TOKEN" = none ∨ env "HF_TOKEN" = some "") →
        env "HUGGINGFACE_TOKEN" = some s → s ≠ "" →
        auth_token env = pyStrip s)
    ∧ initPipelineState = none
    ∧ (∀ (E : DiarizeEnv) (raw : List Nat) (d : SfData × Nat),
        ¬ raw.length < 1600 → E.A.decode raw = some d → E.writeOk = true →
        E.pipe0 = none → auth_token E.env = "" →
        (diarize E raw).1 = .error (.http 500
          "Missing Hugging Face token. Set PYANNOTE_AUTH_TOKEN (or HF_TOKEN).")) := by
  refine ⟨?_, ?_, ?_, rfl, ?_⟩
  · intro env s h1 hs
    simp [auth_token, pyEnvOr, h1, hs]
  · intro env s h1 h2 hs
    rcases h1 with h1 | h1 <;> simp [auth_token, pyEnvOr, h1, h2, hs]
  · intro env s h1 h2 h3 hs
    rcases h1 with h1 | h1 <;> rcases h2 with h2 | h2 <;>
      simp [auth_token, pyEnvOr, h1, h2, h3, hs]
  · intro E raw d hlen hdec hw hp ht
    unfold diarize
    rw [if_neg hlen, hdec]
    simp only [hw]
    have hlp : load_pipeline E.env E.pipe0
        = .error "Missing Hugging Face token. Set PYANNOTE_AUTH_TOKEN (or HF_TOKEN)." := by
      rw [hp]
      simp [load_pipeline, ht]
    rw [hlp]
    simp

theorem claim_C9_auth_token_witness :
    auth_token (fun v => if v = "PYANNOTE_AUTH_TOKEN" then some " tok1 " else none)
      = pyStrip " tok1 "
    ∧ auth_token (fun v => if v = "HF_TOKEN" then some "tok2" else some "")
      = pyStrip "tok2"
    ∧ auth_token (fun v => if v = "HUGGINGFACE_TOKEN" then some "tok3" else none)
      = pyStrip "tok3"
    ∧ initPipelineState = none
    ∧ (diarize ⟨⟨fun _ => some (SfData.mono [0], 16000), fun w _ _ => w⟩,
        true, true, [], true, fun _ => none, none⟩ (List.replicate 1600 0)).1
      = .error (.http 500
          "Missing Hugging Face token. Set PYANNOTE_AUTH_TOKEN (or HF_TOKEN).") := by
  have h := claim_C9_auth_token
  refine ⟨h.1 _ " tok1 " rfl (by decide), ?_, ?_, h.2.2.2.1, ?_⟩
  · exact h.2.1 _ "tok2" (Or.inr rfl) rfl (by decide)
  · exact h.2.2.1 _ "tok3" (Or.inl rfl) (Or.inl rfl) rfl (by decide)
  · exact h.2.2.2.2 _ (List.replicate 1600 0) (SfData.mono [0], 16000)
      (by rw [List.length_replicate]; omega) rfl rfl rfl (by decide)
